import Mathlib

/-!
Verification of the retrieval pipeline in `src/app/api/v1/hackrx/run/route.ts`
(repository `Shahbaz079/hack-rx`).

JavaScript strings are modelled as `List Char`; JavaScript numbers appearing in
vector arithmetic are modelled as exact reals (`ℝ`); fallible code is modelled
with `Except String`.  The external collaborators (PDF text extractor, the
embedding service, the answer-synthesis service) are parameters of the
definitions that call them.
-/

namespace HackRx

/-- Whitespace test matching the JavaScript regex class `\s` on the ASCII
whitespace characters (space, tab, line feed, vertical tab, form feed,
carriage return).  `route.ts` only splits on `/\s+/`, so only membership in
the class matters, not the exact Unicode extent. -/
def isWs (c : Char) : Bool :=
  c == ' ' || c == '\t' || c == '\n' || c == '\x0b' || c == '\x0c' || c == '\r'

/-- The maximal non-whitespace runs of a character list, in order.
This is the token stream underlying `text.split(/\s+/)` (route.ts line 148):
the JavaScript split result is `tokens s` plus an empty string at the front
when `s` starts with whitespace and an empty string at the back when `s`
ends with whitespace (see `jsSplitWs`). -/
def tokens : List Char → List (List Char)
  | [] => []
  | c :: cs =>
    if isWs c then tokens cs
    else (c :: cs.takeWhile (fun x => !isWs x)) :: tokens (cs.dropWhile (fun x => !isWs x))
termination_by l => l.length
decreasing_by
  · simp
  · have h := (List.dropWhile_sublist (l := cs) (p := fun x => !isWs x)).length_le
    simp only [List.length_cons]
    omega

/-- `s.split(/\s+/)` exactly as JavaScript computes it (route.ts line 148):
the string is cut at every maximal whitespace run; a leading (resp. trailing)
whitespace run leaves an empty field at the front (resp. back); the empty
string yields `[""]` because the regex never matches it. -/
def jsSplitWs (s : List Char) : List (List Char) :=
  match s with
  | [] => [[]]
  | c :: cs =>
    (if isWs c then [([] : List Char)] else []) ++ tokens (c :: cs)
      ++ (if isWs ((c :: cs).getLastD 'a') then [([] : List Char)] else [])

/-- The grouping loop `for (let i = 0; i < words.length; i += maxWords)
chunks.push(words.slice(i, i + maxWords) ...)` of `chunkText`
(route.ts lines 151-153), and likewise the batching loop of `getEmbeddings`
(route.ts lines 225-238): consecutive windows of `k` elements, the final
window possibly shorter.  For `k ≥ 1` and a nonempty list `l` this satisfies
`chunkWindows k l = l.take k :: chunkWindows k (l.drop k)`. -/
def chunkWindows (k : Nat) : List α → List (List α)
  | [] => []
  | x :: xs => ((x :: xs).take k) :: chunkWindows k (xs.drop (k - 1))
termination_by l => l.length
decreasing_by
  simp only [List.length_cons, List.length_drop]
  omega

/-- `Array.prototype.join(sep)`: concatenation with `sep` between consecutive
elements (`window.join(" ")`, route.ts line 152). -/
def joinWith (s : List α) : List (List α) → List α
  | [] => []
  | [x] => x
  | x :: y :: t => x ++ s ++ joinWith s (y :: t)

/-- `chunkText(text, maxWords)` (route.ts lines 140-156): reject an empty
`text` (`!text` is true exactly for the empty string) and a non-positive
`maxWords`, split on whitespace runs, group the word sequence into windows of
`maxWords` words and re-join every window with single spaces. -/
def chunkText (text : List Char) (maxWords : Nat) : Except String (List (List Char)) :=
  if text = [] then Except.error "Invalid input: text must be a non-empty string"
  else if maxWords = 0 then Except.error "Invalid input: maxWords must be a positive number"
  else Except.ok ((chunkWindows maxWords (jsSplitWs text)).map (joinWith [' ']))

/-- A list of tokens as produced by splitting on whitespace runs: every token
is nonempty and whitespace-free. -/
def TokensOk (ts : List (List Char)) : Prop :=
  ∀ t ∈ ts, t ≠ [] ∧ ∀ c ∈ t, isWs c = false

/-- The optional empty field that `split(/\s+/)` leaves at either end of the
result when the string starts (resp. ends) with whitespace. -/
def endTok (b : Bool) : List (List Char) := if b then [[]] else []

/-- Shape of a whitespace-split result without a leading empty field:
proper tokens followed by an optional empty field. -/
def MidShape (l : List (List Char)) : Prop :=
  ∃ ts q, TokensOk ts ∧ l = ts ++ endTok q

/-- Shape of every `split(/\s+/)` result: an optional leading empty field,
proper tokens, and an optional trailing empty field. -/
def GoodShape (w : List (List Char)) : Prop :=
  ∃ p l, MidShape l ∧ w = endTok p ++ l

open Classical in

/-- `cosineSimilarity(a, b)` (route.ts lines 159-176) over exact reals:
reject empty vectors, then unequal lengths, compute the dot product
(`a.reduce((sum, val, i) => sum + val * b[i], 0)`, here `zipWith (*)` since
the lengths are already known equal) and the two Euclidean norms, reject a
zero magnitude, and return `dot / (magA * magB)`. -/
noncomputable def cosineSimilarity (a b : List ℝ) : Except String ℝ :=
  if a.length = 0 ∨ b.length = 0 then
    Except.error "Invalid input: vectors must be non-empty arrays"
  else if a.length ≠ b.length then Except.error "Vectors must have the same length"
  else if Real.sqrt ((a.map fun v => v * v).sum) = 0 ∨
      Real.sqrt ((b.map fun v => v * v).sum) = 0 then
    Except.error "Invalid vectors: magnitude cannot be zero"
  else
    Except.ok ((List.zipWith (· * ·) a b).sum /
      (Real.sqrt ((a.map fun v => v * v).sum) * Real.sqrt ((b.map fun v => v * v).sum)))

/-- The value `cosineSimilarity` returns on its success path. -/
noncomputable def simScore (a b : List ℝ) : ℝ :=
  (List.zipWith (· * ·) a b).sum /
    (Real.sqrt ((a.map fun v => v * v).sum) * Real.sqrt ((b.map fun v => v * v).sum))

/-- The order in which `findRelevantChunks` arranges its index-tagged
similarity records.  The source sorts with the comparator
`(a, b) => b.score - a.score` (route.ts line 207); `Array.prototype.sort` is
guaranteed stable (ECMA-262), and the records enter the sort tagged with
strictly increasing indices, so the sorted array is exactly the one ordered
by descending score with ties in ascending original index — the strict total
order below.  The model sorts by this order directly. -/
def simOrder : (Nat × ℝ) → (Nat × ℝ) → Prop := fun x y =>
  y.2 < x.2 ∨ (x.2 = y.2 ∧ x.1 ≤ y.1)

noncomputable instance : DecidableRel simOrder := Classical.decRel _

instance : IsTotal (Nat × ℝ) simOrder where
  total x y := by
    rcases lt_trichotomy x.2 y.2 with h | h | h
    · exact Or.inr (Or.inl h)
    · rcases Nat.le_total x.1 y.1 with h1 | h1
      · exact Or.inl (Or.inr ⟨h, h1⟩)
      · exact Or.inr (Or.inr ⟨h.symm, h1⟩)
    · exact Or.inl (Or.inl h)

instance : IsTrans (Nat × ℝ) simOrder where
  trans x y z hxy hyz := by
    rcases hxy with h1 | ⟨h1, h1'⟩ <;> rcases hyz with h2 | ⟨h2, h2'⟩
    · exact Or.inl (lt_trans h2 h1)
    · exact Or.inl (h2 ▸ h1)
    · exact Or.inl (h1 ▸ h2)
    · exact Or.inr ⟨h1.trans h2, h1'.trans h2'⟩

/-- The `similarities` array of `findRelevantChunks` (route.ts lines 201-204):
each document embedding paired with its index and its similarity score
against the query. -/
noncomputable def simPairs (q : List ℝ) (dV : List (List ℝ)) : List (Nat × ℝ) :=
  dV.enum.map fun pe => (pe.1, simScore q pe.2)

/-- `findRelevantChunks(queryEmbedding, docEmbeddings, docChunks, topK)`
(route.ts lines 179-212): validate the three arrays and the length match,
clamp an out-of-range `topK` to `min(3, docChunks.length)`, score every
document embedding against the query (any `cosineSimilarity` failure aborts
the whole call), sort descending by score (stably — modelled by the strict
total order `simOrder`, see there), take the first `topK` records, and map
each surviving index to its chunk.  The default `topK = 3` of the source is
passed explicitly by callers of this model. -/
noncomputable def findRelevantChunks {α : Type _} [Inhabited α] (queryEmbedding : List ℝ)
    (docEmbeddings : List (List ℝ)) (docChunks : List α) (topK : Int) :
    Except String (List α) :=
  if queryEmbedding.length = 0 then Except.error "Invalid query embedding"
  else if docEmbeddings.length = 0 then Except.error "Invalid document embeddings"
  else if docChunks.length = 0 then Except.error "Invalid document chunks"
  else if docEmbeddings.length ≠ docChunks.length then
    Except.error "Number of embeddings must match number of chunks"
  else
    let k : Nat := if topK ≤ 0 ∨ (docChunks.length : Int) < topK then
      min 3 docChunks.length else topK.toNat
    match docEmbeddings.enum.mapM
        (fun pe => Except.map (fun sc => (pe.1, sc)) (cosineSimilarity queryEmbedding pe.2)) with
    | Except.error e => Except.error e
    | Except.ok sims =>
      Except.ok (((sims.insertionSort simOrder).take k).map fun pe => docChunks.getD pe.1 default)

/-- The batching loop of `getEmbeddings` (route.ts lines 225-238): one
embedding-service call per batch, results concatenated in batch order
(`embeddings.push(...res.data.map(d => d.embedding))`); the first failing
call aborts the loop.  The inter-batch 200 ms pause (line 236) is a pure
throttling delay with no effect on the value and is not modelled. -/
def embedBatches {α : Type _} (svc : List α → Except String (List (List ℝ))) :
    List (List α) → Except String (List (List ℝ))
  | [] => Except.ok []
  | b :: bs =>
    match svc b with
    | Except.error e => Except.error e
    | Except.ok r =>
      match embedBatches svc bs with
      | Except.error e => Except.error e
      | Except.ok rest => Except.ok (r ++ rest)

/-- `getEmbeddings(texts)` (route.ts lines 215-245), with the embedding
service abstracted as `svc` (one call per batch of at most 10 texts).  The
whole body — including the empty-input check — sits inside a `try` whose
`catch` re-throws the uniform `"Failed to generate embeddings"` error, so
every failure surfaces as that single error. -/
def getEmbeddings {α : Type _} (svc : List α → Except String (List (List ℝ)))
    (texts : List α) : Except String (List (List ℝ)) :=
  match (match texts with
    | [] => Except.error "Invalid input: texts must be a non-empty array of strings"
    | _ :: _ => embedBatches svc (chunkWindows 10 texts)) with
  | Except.ok v => Except.ok v
  | Except.error _ => Except.error "Failed to generate embeddings"

/-- A JavaScript value sitting in the `questions` array: a string, or a
non-string value (null, a number, ...) carrying its template-literal
rendering (e.g. `"null"`). -/
inductive JsVal where
  | str (s : List Char)
  | nonStr (display : List Char)

/-- `String.prototype.trim()`: strip whitespace from both ends. -/
def jsTrim (s : List Char) : List Char :=
  ((s.dropWhile isWs).reverse.dropWhile isWs).reverse

/-- `question.trim()` (route.ts line 105): returns the trimmed string for a
string value and throws a `TypeError` for any non-string value. -/
def jsTrimVal : JsVal → Except String (List Char)
  | JsVal.str s => Except.ok (jsTrim s)
  | JsVal.nonStr _ => Except.error "TypeError: question.trim is not a function"

/-- The template-literal rendering used in the error placeholder string. -/
def jsToString : JsVal → List Char
  | JsVal.str s => s
  | JsVal.nonStr d => d

/-- One iteration of the per-question loop (route.ts lines 103-129),
returning the single string pushed onto `results` and the I/O events of the
iteration.  The `try` body trims the question (a throwing `.trim()` on a
non-string lands in the `catch`), short-circuits empty questions, embeds the
single question (`const [questionEmbedding] = await getEmbeddings([question])`
— the destructuring is modelled by `headD []`), ranks the chunks with the
default `topK = 3`, and synthesizes an answer; any failure is caught and
converted to the per-question placeholder. -/
noncomputable def processQuestion
    (svc : List (List Char) → Except String (List (List ℝ)))
    (synth : List Char → List (List Char) → Except String (List Char))
    (chunkEmbs : List (List ℝ)) (chunks : List (List Char)) (q : JsVal) :
    List Char × List String :=
  match jsTrimVal q with
  | Except.error _ => ("Error: Failed to process the question: ".data ++ jsToString q, [])
  | Except.ok t =>
    if t = [] then ("Error: Empty question provided".data, [])
    else
      match getEmbeddings svc [jsToString q] with
      | Except.error _ =>
        ("Error: Failed to process the question: ".data ++ jsToString q, ["embed-question"])
      | Except.ok embs =>
        match findRelevantChunks (embs.headD []) chunkEmbs chunks 3 with
        | Except.error _ =>
          ("Error: Failed to process the question: ".data ++ jsToString q, ["embed-question"])
        | Except.ok rel =>
          match synth (jsToString q) rel with
          | Except.error _ =>
            ("Error: Failed to process the question: ".data ++ jsToString q,
              ["embed-question", "synthesize"])
          | Except.ok ans => (ans, ["embed-question", "synthesize"])

/-- The per-question loop (route.ts lines 101-129): starting from the empty
`results` array, each iteration pushes exactly one string. -/
noncomputable def runQuestions
    (svc : List (List Char) → Except String (List (List ℝ)))
    (synth : List Char → List (List Char) → Except String (List Char))
    (chunkEmbs : List (List ℝ)) (chunks : List (List Char)) (qs : List JsVal) :
    List (List Char) × List String :=
  qs.foldl (fun acc q =>
    let r := processQuestion svc synth chunkEmbs chunks q
    (acc.1 ++ [r.1], acc.2 ++ r.2)) ([], [])

/-- The inbound `questions` field: missing (`undefined`/`null`/falsy), a
non-array value, or an actual array. -/
inductive QField where
  | missing
  | notArray
  | arr (qs : List JsVal)

/-- The list held by an array-valued `questions` field. -/
def QField.list : QField → List JsVal
  | QField.arr qs => qs
  | _ => []

/-- The top-level validation (route.ts line 20):
`!documents || !questions || !Array.isArray(questions) ||
questions.length === 0`.  A missing or empty (falsy) `documents`, a missing
or non-array `questions`, or an empty `questions` array is invalid. -/
def validInput : Option (List Char) → QField → Bool
  | some (_ :: _), QField.arr (_ :: _) => true
  | _, _ => false

/-- An HTTP response of the route: an error response with a status code, or a
200 response carrying the `answers` list. -/
inductive Resp where
  | err (status : Nat) (msg : String)
  | answers (l : List (List Char))

/-- The `POST` handler (route.ts lines 15-137) with its three collaborators
as parameters: `extract` (fetch + PDF parse of stage 1, returning the
extracted text or a descriptive failure), `svc` (one embedding-service batch
call), and `synth` (the answer-synthesis call).  Alongside the response it
returns the trace of outbound I/O events, in order: `"fetch"`,
`"embed-corpus"`, and the per-question events.  Stages in order: validate
(400 on failure, nothing called), fetch/parse (500, including the
empty-extracted-text check inside the same `try`), chunk (500), corpus
embedding (500), then the per-question loop and the 200 response. -/
noncomputable def POSTrun
    (extract : List Char → Except String (List Char))
    (svc : List (List Char) → Except String (List (List ℝ)))
    (synth : List Char → List (List Char) → Except String (List Char))
    (documents : Option (List Char)) (questions : QField) : Resp × List String :=
  if validInput documents questions then
    match extract (documents.getD []) with
    | Except.error e =>
      (Resp.err 500 ("Failed to fetch or parse the PDF document: " ++ e), ["fetch"])
    | Except.ok fullText =>
      if jsTrim fullText = [] then
        (Resp.err 500 ("Failed to fetch or parse the PDF document: " ++
          "PDF parsing succeeded but extracted text is empty"), ["fetch"])
      else
        match chunkText fullText 500 with
        | Except.error _ => (Resp.err 500 "Failed to process the document content.", ["fetch"])
        | Except.ok chunks =>
          match getEmbeddings svc chunks with
          | Except.error _ =>
            (Resp.err 500 "Failed to generate document embeddings.", ["fetch", "embed-corpus"])
          | Except.ok chunkEmbs =>
            let r := runQuestions svc synth chunkEmbs chunks questions.list
            (Resp.answers r.1, ["fetch", "embed-corpus"] ++ r.2)
  else
    (Resp.err 400 "Invalid request. Please provide documents URL and questions array.", [])

theorem sanity_tokens_one_two : tokens "one two".data = ["one".data, "two".data] := by
  simp [tokens, isWs, String.data]

theorem sanity_jsSplitWs_fields : jsSplitWs " a b ".data = [[], "a".data, "b".data, []] := by
  simp [jsSplitWs, tokens, isWs, String.data]

theorem sanity_chunkText_scenario :
    chunkText "one two three four five".data 2 =
      Except.ok ["one two".data, "three four".data, "five".data] := by
  simp [chunkText, chunkWindows, jsSplitWs, tokens, joinWith, isWs, String.data]

theorem tokens_nil : tokens ([] : List Char) = [] := by
  simp [tokens]

theorem endTok_false : endTok false = [] := rfl

theorem endTok_true : endTok true = [[]] := rfl

theorem tokens_cons_of_ws {c : Char} {cs : List Char} (h : isWs c = true) :
    tokens (c :: cs) = tokens cs := by
  rw [tokens, if_pos h]

theorem tokens_cons_of_not_ws {c : Char} {cs : List Char} (h : isWs c = false) :
    tokens (c :: cs) =
      (c :: cs.takeWhile (fun x => !isWs x)) :: tokens (cs.dropWhile (fun x => !isWs x)) := by
  rw [tokens, if_neg (by simp [h])]

theorem takeWhile_append_all {α : Type _} {p : α → Bool} {xs ys : List α}
    (h : ∀ x ∈ xs, p x = true) : (xs ++ ys).takeWhile p = xs ++ ys.takeWhile p := by
  induction xs with
  | nil => simp
  | cons a l ih =>
    have ht := ih (fun x hx => h x (by simp [hx]))
    simp [List.takeWhile_cons, h a (by simp), ht]

theorem dropWhile_append_all {α : Type _} {p : α → Bool} {xs ys : List α}
    (h : ∀ x ∈ xs, p x = true) : (xs ++ ys).dropWhile p = ys.dropWhile p := by
  induction xs with
  | nil => simp
  | cons a l ih =>
    have ht := ih (fun x hx => h x (by simp [hx]))
    simp [List.dropWhile_cons, h a (by simp), ht]

theorem takeWhile_all_eq {α : Type _} {p : α → Bool} {xs : List α}
    (h : ∀ x ∈ xs, p x = true) : xs.takeWhile p = xs := by
  induction xs with
  | nil => simp
  | cons a l ih =>
    have ht := ih (fun x hx => h x (by simp [hx]))
    simp [List.takeWhile_cons, h a (by simp), ht]

theorem dropWhile_all_eq_nil {α : Type _} {p : α → Bool} {xs : List α}
    (h : ∀ x ∈ xs, p x = true) : xs.dropWhile p = [] := by
  induction xs with
  | nil => simp
  | cons a l ih =>
    have ht := ih (fun x hx => h x (by simp [hx]))
    simp [List.dropWhile_cons, h a (by simp), ht]

theorem takeWhile_append_singleton_neg {α : Type _} {p : α → Bool} {c : α}
    (h : p c = false) (xs : List α) : (xs ++ [c]).takeWhile p = xs.takeWhile p := by
  induction xs with
  | nil => simp [List.takeWhile_cons, h]
  | cons a l ih =>
    simp only [List.cons_append, List.takeWhile_cons]
    cases hpa : p a <;> simp [ih]

theorem dropWhile_append_singleton_neg {α : Type _} {p : α → Bool} {c : α}
    (h : p c = false) (xs : List α) : (xs ++ [c]).dropWhile p = xs.dropWhile p ++ [c] := by
  induction xs with
  | nil => simp [List.dropWhile_cons, h]
  | cons a l ih =>
    simp only [List.cons_append, List.dropWhile_cons]
    cases hpa : p a <;> simp [ih]

theorem tokensOk_tokens : ∀ s : List Char, TokensOk (tokens s)
  | [] => by simp [tokens_nil, TokensOk]
  | c :: cs => by
    cases h : isWs c with
    | true =>
      rw [tokens_cons_of_ws h]
      exact tokensOk_tokens cs
    | false =>
      rw [tokens_cons_of_not_ws h]
      intro t ht
      rcases List.mem_cons.mp ht with rfl | ht'
      · refine ⟨by simp, ?_⟩
        intro x hx
        rcases List.mem_cons.mp hx with rfl | hx'
        · exact h
        · have hpx := List.mem_takeWhile_imp hx'
          simpa using hpx
      · exact tokensOk_tokens (cs.dropWhile (fun x => !isWs x)) t ht'
termination_by s => s.length
decreasing_by
  all_goals
    simp only [List.length_cons]
    refine Nat.lt_succ_of_le ?_
    first
    | exact Nat.le_refl _
    | exact (List.dropWhile_sublist _).length_le

theorem tokens_all_ws {s : List Char} (h : ∀ c ∈ s, isWs c = true) : tokens s = [] := by
  induction s with
  | nil => exact tokens_nil
  | cons c cs ih =>
    rw [tokens_cons_of_ws (h c (by simp))]
    exact ih (fun x hx => h x (by simp [hx]))

theorem tokens_append_ws : ∀ (s : List Char) {c : Char}, isWs c = true →
    tokens (s ++ [c]) = tokens s
  | [], c, hc => by simp [tokens_cons_of_ws hc, tokens_nil]
  | a :: as, c, hc => by
    cases h : isWs a with
    | true =>
      rw [List.cons_append, tokens_cons_of_ws h, tokens_cons_of_ws h]
      exact tokens_append_ws as hc
    | false =>
      rw [List.cons_append, tokens_cons_of_not_ws h, tokens_cons_of_not_ws h]
      rw [takeWhile_append_singleton_neg (by simp [hc]) as,
        dropWhile_append_singleton_neg (by simp [hc]) as]
      rw [tokens_append_ws (as.dropWhile (fun x => !isWs x)) hc]
termination_by s => s.length
decreasing_by
  all_goals
    simp only [List.length_cons]
    refine Nat.lt_succ_of_le ?_
    first
    | exact Nat.le_refl _
    | exact (List.dropWhile_sublist _).length_le

/-- A single nonempty whitespace-free token splits into itself. -/
theorem tokens_of_token {t : List Char} (hne : t ≠ [])
    (hws : ∀ c ∈ t, isWs c = false) : tokens t = [t] := by
  rcases t with _ | ⟨c, cs⟩
  · exact absurd rfl hne
  · rw [tokens_cons_of_not_ws (hws c (by simp))]
    rw [takeWhile_all_eq (fun x hx => by simp [hws x (by simp [hx])]),
      dropWhile_all_eq_nil (fun x hx => by simp [hws x (by simp [hx])]), tokens_nil]

theorem joinWith_ne_nil {α : Type _} {s t : List α} {rest : List (List α)}
    (ht : t ≠ []) : joinWith s (t :: rest) ≠ [] := by
  cases rest with
  | nil => simpa [joinWith] using ht
  | cons y r => simp [joinWith, ht]

theorem joinWith_append {α : Type _} {s : List α} :
    ∀ (xs ys : List (List α)), xs ≠ [] → ys ≠ [] →
      joinWith s (xs ++ ys) = joinWith s xs ++ s ++ joinWith s ys
  | [], _, hxs, _ => absurd rfl hxs
  | [x], ys, _, hys => by
    rcases List.exists_cons_of_ne_nil hys with ⟨y, t, rfl⟩
    simp [joinWith]
  | x1 :: x2 :: t, ys, _, hys => by
    have ih := joinWith_append (s := s) (x2 :: t) ys (by simp) hys
    show x1 ++ s ++ joinWith s ((x2 :: t) ++ ys)
        = (x1 ++ s ++ joinWith s (x2 :: t)) ++ s ++ joinWith s ys
    rw [ih]
    simp [List.append_assoc]

theorem joinWith_windows {α : Type _} {s : List α} :
    ∀ (W : List (List (List α))), (∀ w ∈ W, w ≠ []) →
      joinWith s (W.map (joinWith s)) = joinWith s W.flatten
  | [], _ => by simp [joinWith]
  | [w], _ => by simp [joinWith]
  | w :: w2 :: t, h => by
    have ih := joinWith_windows (s := s) (w2 :: t) (fun x hx => h x (by simp [hx]))
    have hw : w ≠ [] := h w (by simp)
    have hw2 : w2 ≠ [] := h w2 (by simp)
    have hfl : (w2 :: t).flatten ≠ [] := by simp [List.flatten_cons, hw2]
    calc joinWith s (List.map (joinWith s) (w :: w2 :: t))
        = joinWith s w ++ s ++ joinWith s (List.map (joinWith s) (w2 :: t)) := rfl
      _ = joinWith s w ++ s ++ joinWith s (w2 :: t).flatten := by rw [ih]
      _ = joinWith s (w ++ (w2 :: t).flatten) :=
          (joinWith_append (s := s) w ((w2 :: t).flatten) hw hfl).symm
      _ = joinWith s ((w :: w2 :: t).flatten) := by simp [List.flatten_cons]

theorem getLastD_append_right {α : Type _} {xs ys : List α} (h : ys ≠ []) (d : α) :
    (xs ++ ys).getLastD d = ys.getLastD d := by
  rw [List.getLastD_eq_getLast?, List.getLastD_eq_getLast?, List.getLast?_append]
  rw [List.getLast?_eq_getLast ys h, Option.or_some]

theorem isWs_getLastD_of_token {t : List Char} (ht : t ≠ [])
    (hws : ∀ c ∈ t, isWs c = false) (d : Char) : isWs (t.getLastD d) = false := by
  have hmem : t.getLastD d ∈ t := by
    rw [List.getLastD_eq_getLast?, List.getLast?_eq_getLast t ht]
    exact List.getLast_mem ht
  exact hws _ hmem

theorem getLastD_joinWith_tokens :
    ∀ (ts : List (List Char)), TokensOk ts → ts ≠ [] → ∀ d : Char,
      isWs ((joinWith [' '] ts).getLastD d) = false
  | [], _, hne, _ => absurd rfl hne
  | [t], h, _, d => by
    simpa [joinWith] using isWs_getLastD_of_token (h t (by simp)).1 (h t (by simp)).2 d
  | t :: u :: rest, h, _, d => by
    have ih := getLastD_joinWith_tokens (u :: rest)
      (fun x hx => h x (by simp [hx])) (by simp) d
    have hu : u ≠ [] := (h u (by simp)).1
    have hJ : joinWith [' '] (u :: rest) ≠ [] := joinWith_ne_nil hu
    have h1 : joinWith [' '] (t :: u :: rest)
        = (t ++ [' ']) ++ joinWith [' '] (u :: rest) := rfl
    rw [h1, getLastD_append_right hJ d]
    exact ih

theorem tokens_joinWith : ∀ (ts : List (List Char)), TokensOk ts →
    tokens (joinWith [' '] ts) = ts
  | [], _ => by simp [joinWith, tokens_nil]
  | [t], h => by
    simpa [joinWith] using tokens_of_token (h t (by simp)).1 (h t (by simp)).2
  | t :: u :: rest, h => by
    have ih := tokens_joinWith (u :: rest) (fun x hx => h x (by simp [hx]))
    obtain ⟨c, cs, rfl⟩ := List.exists_cons_of_ne_nil (h t (by simp)).1
    have hc : isWs c = false := (h (c :: cs) (by simp)).2 c (by simp)
    have hcs : ∀ x ∈ cs, (fun x => !isWs x) x = true := fun x hx => by
      simp [(h (c :: cs) (by simp)).2 x (by simp [hx])]
    have hsplit : joinWith [' '] ((c :: cs) :: u :: rest) =
        c :: (cs ++ ' ' :: joinWith [' '] (u :: rest)) := by
      simp [joinWith, List.append_assoc]
    rw [hsplit, tokens_cons_of_not_ws hc]
    rw [takeWhile_append_all hcs, dropWhile_append_all hcs]
    have hspace : isWs ' ' = true := by simp [isWs]
    rw [List.takeWhile_cons, List.dropWhile_cons]
    simp only [hspace, Bool.not_true, Bool.false_eq_true, if_false]
    rw [tokens_cons_of_ws hspace, ih]
    simp

theorem joinWith_cons_head {α : Type _} {s : List α} :
    ∀ (c : α) (cs : List α) (rest : List (List α)),
      ∃ m, joinWith s ((c :: cs) :: rest) = c :: m
  | _, cs, [] => ⟨cs, rfl⟩
  | _, cs, y :: t => ⟨cs ++ s ++ joinWith s (y :: t), rfl⟩

theorem jsSplitWs_ne_nil_eq {s : List Char} (h : s ≠ []) :
    jsSplitWs s = (if isWs (s.headD 'a') then [([] : List Char)] else []) ++ tokens s
      ++ (if isWs (s.getLastD 'a') then [([] : List Char)] else []) := by
  obtain ⟨c, cs, rfl⟩ := List.exists_cons_of_ne_nil h
  rfl

theorem isWs_space : isWs ' ' = true := by simp [isWs]

/-- Re-splitting the single-space join of a whitespace-split-shaped list
recovers the list: `joinWith` and `jsSplitWs` are inverse on `GoodShape`. -/
theorem jsSplitWs_joinWith {w : List (List Char)} (hw : GoodShape w) (hne : w ≠ []) :
    jsSplitWs (joinWith [' '] w) = w := by
  obtain ⟨p, l, ⟨ts, q, hts, rfl⟩, rfl⟩ := hw
  cases ts with
  | nil =>
    cases p <;> cases q
    · simp [endTok] at hne
    · simp [endTok, joinWith, jsSplitWs]
    · simp [endTok, joinWith, jsSplitWs]
    · simp only [endTok_false, endTok_true, List.nil_append, List.append_nil]
      show jsSplitWs (joinWith [' '] [[], []]) = [[], []]
      simp [joinWith, jsSplitWs, tokens, isWs]
  | cons t ts' =>
    obtain ⟨c, cs, rfl⟩ := List.exists_cons_of_ne_nil (hts t (by simp)).1
    have hc : isWs c = false := (hts (c :: cs) (by simp)).2 c (by simp)
    have htok : tokens (joinWith [' '] ((c :: cs) :: ts')) = (c :: cs) :: ts' :=
      tokens_joinWith _ hts
    have hJne : joinWith [' '] ((c :: cs) :: ts') ≠ [] := joinWith_ne_nil (by simp)
    have hlast : isWs ((joinWith [' '] ((c :: cs) :: ts')).getLastD 'a') = false :=
      getLastD_joinWith_tokens _ hts (by simp) 'a'
    obtain ⟨m, hm⟩ := joinWith_cons_head (s := [' ']) c cs ts'
    cases p <;> cases q
    · -- no leading, no trailing empty field
      simp only [endTok_false, endTok_true, List.nil_append, List.append_nil]
      rw [jsSplitWs_ne_nil_eq hJne]
      rw [show (joinWith [' '] ((c :: cs) :: ts')).headD 'a' = c by rw [hm]; rfl]
      have hlast2 : isWs ((joinWith [' '] ((c :: cs) :: ts')).getLast?.getD 'a') = false := by
        rw [← List.getLastD_eq_getLast?]
        exact hlast
      simp [hc, htok, hlast, hlast2]
    · -- trailing empty field only
      simp only [endTok_false, endTok_true, List.nil_append]
      have hfull : joinWith [' '] ((c :: cs) :: ts' ++ [[]])
          = joinWith [' '] ((c :: cs) :: ts') ++ [' '] := by
        rw [joinWith_append _ _ (by simp) (by simp)]
        simp [joinWith]
      rw [hfull, jsSplitWs_ne_nil_eq (by simp [hJne])]
      rw [tokens_append_ws _ isWs_space, htok]
      rw [getLastD_append_right (by simp) 'a']
      rw [show ((joinWith [' '] ((c :: cs) :: ts') ++ [' ']).headD 'a') =
        (joinWith [' '] ((c :: cs) :: ts')).headD 'a' by rw [hm]; rfl]
      rw [show (joinWith [' '] ((c :: cs) :: ts')).headD 'a' = c by rw [hm]; rfl]
      simp [hc, isWs_space]
    · -- leading empty field only
      simp only [endTok_false, endTok_true, List.append_nil]
      have hfull : joinWith [' '] ([[]] ++ (c :: cs) :: ts')
          = ' ' :: joinWith [' '] ((c :: cs) :: ts') := by
        rw [joinWith_append _ _ (by simp) (by simp)]
        simp [joinWith]
      rw [hfull, jsSplitWs_ne_nil_eq (by simp)]
      rw [show (' ' :: joinWith [' '] ((c :: cs) :: ts')).headD 'a' = ' ' from rfl]
      rw [tokens_cons_of_ws isWs_space, htok]
      rw [show (' ' :: joinWith [' '] ((c :: cs) :: ts'))
          = [' '] ++ joinWith [' '] ((c :: cs) :: ts') from rfl]
      rw [getLastD_append_right hJne 'a', hlast]
      simp [isWs_space]
    · -- both end fields
      simp only [endTok_false, endTok_true]
      have hinner : joinWith [' '] ((c :: cs) :: ts' ++ [[]])
          = joinWith [' '] ((c :: cs) :: ts') ++ [' '] := by
        rw [joinWith_append _ _ (by simp) (by simp)]
        simp [joinWith]
      have hfull : joinWith [' '] ([[]] ++ ((c :: cs) :: ts' ++ [[]]))
          = ' ' :: (joinWith [' '] ((c :: cs) :: ts') ++ [' ']) := by
        rw [joinWith_append _ _ (by simp) (by simp), hinner]
        simp [joinWith]
      rw [hfull, jsSplitWs_ne_nil_eq (by simp)]
      rw [show (' ' :: (joinWith [' '] ((c :: cs) :: ts') ++ [' '])).headD 'a' = ' ' from rfl]
      rw [tokens_cons_of_ws isWs_space, tokens_append_ws _ isWs_space, htok]
      rw [show (' ' :: (joinWith [' '] ((c :: cs) :: ts') ++ [' ']))
          = [' '] ++ (joinWith [' '] ((c :: cs) :: ts') ++ [' ']) from rfl]
      rw [getLastD_append_right (by simp [hJne]) 'a', getLastD_append_right (by simp) 'a']
      simp [isWs_space]

theorem goodShape_jsSplitWs (s : List Char) : GoodShape (jsSplitWs s) := by
  cases s with
  | nil =>
    exact ⟨true, [], ⟨[], false, by simp [TokensOk], by simp [endTok]⟩, by
      simp [jsSplitWs, endTok]⟩
  | cons c cs =>
    refine ⟨isWs c, tokens (c :: cs) ++ endTok (isWs ((c :: cs).getLastD 'a')),
      ⟨tokens (c :: cs), isWs ((c :: cs).getLastD 'a'), tokensOk_tokens _, rfl⟩, ?_⟩
    simp [jsSplitWs, endTok, List.append_assoc]

theorem jsSplitWs_ne_nil (s : List Char) : jsSplitWs s ≠ [] := by
  cases s with
  | nil => simp [jsSplitWs]
  | cons c cs =>
    cases h : isWs c with
    | true => simp [jsSplitWs, h]
    | false => simp [jsSplitWs, h, tokens_cons_of_not_ws h]

theorem chunkWindows_cons {α : Type _} {k : Nat} (hk : 0 < k) (x : α) (xs : List α) :
    chunkWindows k (x :: xs) = (x :: xs).take k :: chunkWindows k ((x :: xs).drop k) := by
  have hk1 : k = (k - 1) + 1 := (Nat.succ_pred_eq_of_pos hk).symm
  have hdrop : (x :: xs).drop k = xs.drop (k - 1) := by
    conv_lhs => rw [hk1]
    exact List.drop_succ_cons
  rw [chunkWindows, hdrop]

theorem chunkWindows_eq_nil_iff {α : Type _} {k : Nat} {l : List α} :
    chunkWindows k l = [] ↔ l = [] := by
  cases l <;> simp [chunkWindows]

theorem chunkWindows_flatten {α : Type _} {k : Nat} (hk : 0 < k) :
    ∀ l : List α, (chunkWindows k l).flatten = l
  | [] => by simp [chunkWindows]
  | x :: xs => by
    have ih := chunkWindows_flatten hk ((x :: xs).drop k)
    rw [chunkWindows_cons hk, List.flatten_cons, ih, List.take_append_drop]
termination_by l => l.length
decreasing_by
  simp only [List.length_drop, List.length_cons]
  omega

theorem ne_nil_of_mem_chunkWindows {α : Type _} {k : Nat} (hk : 0 < k) :
    ∀ (l : List α), ∀ v ∈ chunkWindows k l, v ≠ []
  | [] => by simp [chunkWindows]
  | x :: xs => by
    rw [chunkWindows_cons hk]
    intro v hv
    rcases List.mem_cons.mp hv with rfl | hv'
    · have hk1 : k = (k - 1) + 1 := (Nat.succ_pred_eq_of_pos hk).symm
      rw [hk1, List.take_succ_cons]
      simp
    · exact ne_nil_of_mem_chunkWindows hk ((x :: xs).drop k) v hv'
termination_by l => l.length
decreasing_by
  simp only [List.length_drop, List.length_cons]
  omega

theorem length_le_of_mem_chunkWindows {α : Type _} {k : Nat} :
    ∀ (l : List α), ∀ v ∈ chunkWindows k l, v.length ≤ k
  | [] => by simp [chunkWindows]
  | x :: xs => by
    rw [chunkWindows]
    intro v hv
    rcases List.mem_cons.mp hv with rfl | hv'
    · simp [List.length_take]
    · exact length_le_of_mem_chunkWindows (xs.drop (k - 1)) v hv'
termination_by l => l.length
decreasing_by
  simp only [List.length_drop, List.length_cons]
  omega

theorem length_eq_of_mem_dropLast_chunkWindows {α : Type _} {k : Nat} (hk : 0 < k) :
    ∀ (l : List α), ∀ v ∈ (chunkWindows k l).dropLast, v.length = k
  | [] => by simp [chunkWindows]
  | x :: xs => by
    rw [chunkWindows_cons hk]
    by_cases hr : chunkWindows k ((x :: xs).drop k) = []
    · rw [hr]
      simp
    · rw [List.dropLast_cons_of_ne_nil hr]
      intro v hv
      rcases List.mem_cons.mp hv with rfl | hv'
      · have hlen : k < (x :: xs).length := by
          have := chunkWindows_eq_nil_iff.not.mp hr
          have h2 : ¬ (x :: xs).length ≤ k := fun hle =>
            this (List.drop_of_length_le hle)
          omega
        simp only [List.length_take]
        omega
      · exact length_eq_of_mem_dropLast_chunkWindows hk ((x :: xs).drop k) v hv'
termination_by l => l.length
decreasing_by
  simp only [List.length_drop, List.length_cons]
  omega

theorem tokensOk_take {ts : List (List Char)} (h : TokensOk ts) (n : Nat) :
    TokensOk (ts.take n) :=
  fun t ht => h t (List.take_subset n ts ht)

theorem tokensOk_drop {ts : List (List Char)} (h : TokensOk ts) (n : Nat) :
    TokensOk (ts.drop n) :=
  fun t ht => h t (List.drop_subset n ts ht)

theorem midShape_take {l : List (List Char)} (h : MidShape l) (n : Nat) :
    MidShape (l.take n) := by
  obtain ⟨ts, q, hts, rfl⟩ := h
  cases q
  · refine ⟨ts.take n, false, tokensOk_take hts n, ?_⟩
    simp [endTok_false]
  · rw [endTok_true, List.take_append_eq_append_take]
    by_cases hn : n ≤ ts.length
    · have h0 : n - ts.length = 0 := by omega
      exact ⟨ts.take n, false, tokensOk_take hts n, by simp [h0, endTok_false]⟩
    · obtain ⟨j, hj⟩ : ∃ j, n - ts.length = j + 1 := ⟨n - ts.length - 1, by omega⟩
      have hts_eq : ts.take n = ts := List.take_of_length_le (by omega)
      exact ⟨ts, true, hts, by simp [hj, hts_eq, endTok_true]⟩

theorem midShape_nil : MidShape [] :=
  ⟨[], false, by simp [TokensOk], by simp [endTok_false]⟩

theorem midShape_drop {l : List (List Char)} (h : MidShape l) (n : Nat) :
    MidShape (l.drop n) := by
  obtain ⟨ts, q, hts, rfl⟩ := h
  cases q
  · refine ⟨ts.drop n, false, tokensOk_drop hts n, ?_⟩
    simp [endTok_false]
  · rw [endTok_true, List.drop_append_eq_append_drop]
    by_cases hn : n ≤ ts.length
    · have h0 : n - ts.length = 0 := by omega
      exact ⟨ts.drop n, true, tokensOk_drop hts n, by simp [h0, endTok_true]⟩
    · obtain ⟨j, hj⟩ : ∃ j, n - ts.length = j + 1 := ⟨n - ts.length - 1, by omega⟩
      have h1 : ts.drop n = [] := List.drop_of_length_le (by omega)
      refine ⟨[], false, by simp [TokensOk], ?_⟩
      simp [h1, hj, endTok_false]

theorem midShape_goodShape {l : List (List Char)} (h : MidShape l) : GoodShape l :=
  ⟨false, l, h, by simp [endTok_false]⟩

theorem goodShape_nil : GoodShape [] := midShape_goodShape midShape_nil

theorem goodShape_take {w : List (List Char)} (h : GoodShape w) (n : Nat) :
    GoodShape (w.take n) := by
  obtain ⟨p, l, hl, rfl⟩ := h
  cases p
  · simp only [endTok_false, List.nil_append]
    exact midShape_goodShape (midShape_take hl n)
  · rw [endTok_true]
    cases n with
    | zero => simpa using goodShape_nil
    | succ j =>
      rw [show ([[]] ++ l : List (List Char)) = [] :: l from rfl, List.take_succ_cons]
      exact ⟨true, l.take j, midShape_take hl j, by simp [endTok_true]⟩

theorem goodShape_drop {w : List (List Char)} (h : GoodShape w) (n : Nat) :
    GoodShape (w.drop n) := by
  obtain ⟨p, l, hl, rfl⟩ := h
  cases p
  · simp only [endTok_false, List.nil_append]
    exact midShape_goodShape (midShape_drop hl n)
  · rw [endTok_true]
    cases n with
    | zero => exact ⟨true, l, hl, by simp [endTok_true]⟩
    | succ j =>
      rw [show ([[]] ++ l : List (List Char)) = [] :: l from rfl, List.drop_succ_cons]
      exact midShape_goodShape (midShape_drop hl j)

theorem goodShape_of_mem_chunkWindows {k : Nat} (hk : 0 < k) :
    ∀ (l : List (List Char)), GoodShape l → ∀ v ∈ chunkWindows k l, GoodShape v
  | [], _ => by simp [chunkWindows]
  | x :: xs, h => by
    rw [chunkWindows_cons hk]
    intro v hv
    rcases List.mem_cons.mp hv with rfl | hv'
    · exact goodShape_take h k
    · exact goodShape_of_mem_chunkWindows hk ((x :: xs).drop k) (goodShape_drop h k) v hv'
termination_by l => l.length
decreasing_by
  simp only [List.length_drop, List.length_cons]
  omega

theorem chunkText_ok {text : List Char} {k : Nat} (htext : text ≠ []) (hk : 0 < k) :
    chunkText text k = Except.ok ((chunkWindows k (jsSplitWs text)).map (joinWith [' '])) := by
  rw [chunkText, if_neg htext, if_neg (by omega)]

/-- Claim C2: for every nonempty `text` and `maxWords > 0`, `chunkText`
succeeds and produces the single-space joins of the consecutive
`maxWords`-sized windows of the whitespace-split word sequence: re-splitting
the chunks (individually, or their single-space concatenation) reproduces the
word sequence exactly — the chunks partition it in order with no overlap and
no gaps — and every chunk except possibly the last splits into exactly
`maxWords` words (the last into at most `maxWords`). -/
theorem chunkText_partitions_word_sequence (text : List Char) (maxWords : Nat)
    (htext : text ≠ []) (hk : 0 < maxWords) :
    ∃ chunks, chunkText text maxWords = Except.ok chunks ∧
      chunks = (chunkWindows maxWords (jsSplitWs text)).map (joinWith [' ']) ∧
      chunks.map jsSplitWs = chunkWindows maxWords (jsSplitWs text) ∧
      (chunks.map jsSplitWs).flatten = jsSplitWs text ∧
      jsSplitWs (joinWith [' '] chunks) = jsSplitWs text ∧
      (∀ c ∈ chunks.dropLast, (jsSplitWs c).length = maxWords) ∧
      (∀ c ∈ chunks, (jsSplitWs c).length ≤ maxWords) := by
  have hshape : ∀ v ∈ chunkWindows maxWords (jsSplitWs text), GoodShape v :=
    goodShape_of_mem_chunkWindows hk _ (goodShape_jsSplitWs text)
  have hvne : ∀ v ∈ chunkWindows maxWords (jsSplitWs text), v ≠ [] :=
    ne_nil_of_mem_chunkWindows hk _
  have hmap : ∀ v ∈ chunkWindows maxWords (jsSplitWs text),
      jsSplitWs (joinWith [' '] v) = v :=
    fun v hv => jsSplitWs_joinWith (hshape v hv) (hvne v hv)
  have hb : ((chunkWindows maxWords (jsSplitWs text)).map (joinWith [' '])).map jsSplitWs
      = chunkWindows maxWords (jsSplitWs text) := by
    rw [List.map_map]
    have hcongr : List.map (jsSplitWs ∘ joinWith [' '])
        (chunkWindows maxWords (jsSplitWs text))
        = List.map id (chunkWindows maxWords (jsSplitWs text)) :=
      List.map_congr_left (fun v hv => hmap v hv)
    rw [hcongr]
    exact List.map_id _
  refine ⟨(chunkWindows maxWords (jsSplitWs text)).map (joinWith [' ']),
    chunkText_ok htext hk, rfl, hb, ?_, ?_, ?_, ?_⟩
  · rw [hb]
    exact chunkWindows_flatten hk _
  · rw [joinWith_windows _ hvne, chunkWindows_flatten hk _]
    exact jsSplitWs_joinWith (goodShape_jsSplitWs text) (jsSplitWs_ne_nil text)
  · intro c hc
    rw [← List.map_dropLast] at hc
    obtain ⟨v, hv, rfl⟩ := List.mem_map.mp hc
    have hvW : v ∈ chunkWindows maxWords (jsSplitWs text) :=
      (List.dropLast_sublist _).subset hv
    rw [hmap v hvW]
    exact length_eq_of_mem_dropLast_chunkWindows hk _ v hv
  · intro c hc
    obtain ⟨v, hv, rfl⟩ := List.mem_map.mp hc
    rw [hmap v hv]
    exact length_le_of_mem_chunkWindows _ v hv

/-- Witness for C2 at `text = "a b c"`, `maxWords = 2`. -/
theorem chunkText_partitions_word_sequence_witness :
    "a b c".data ≠ [] ∧ 0 < 2 ∧
      ∃ chunks, chunkText "a b c".data 2 = Except.ok chunks ∧
        chunks = (chunkWindows 2 (jsSplitWs "a b c".data)).map (joinWith [' ']) ∧
        chunks.map jsSplitWs = chunkWindows 2 (jsSplitWs "a b c".data) ∧
        (chunks.map jsSplitWs).flatten = jsSplitWs "a b c".data ∧
        jsSplitWs (joinWith [' '] chunks) = jsSplitWs "a b c".data ∧
        (∀ c ∈ chunks.dropLast, (jsSplitWs c).length = 2) ∧
        (∀ c ∈ chunks, (jsSplitWs c).length ≤ 2) :=
  ⟨by simp, by omega,
    chunkText_partitions_word_sequence "a b c".data 2 (by simp) (by omega)⟩

/-- Claim C9: whitespace-only nonempty text passes `chunkText`'s empty-input
check (which rejects only the empty string), so the call succeeds and returns
a nonempty chunk list; the word sequence it is built from consists of empty
tokens only (the two empty fields JavaScript's split leaves around a
whitespace-only string), and every chunk is the single-space join of a window
of those empty tokens. -/
theorem chunkText_whitespace_only (text : List Char) (maxWords : Nat)
    (htext : text ≠ []) (hws : ∀ c ∈ text, isWs c = true) (hk : 0 < maxWords) :
    ∃ chunks, chunkText text maxWords = Except.ok chunks ∧ chunks ≠ [] ∧
      chunks = (chunkWindows maxWords (jsSplitWs text)).map (joinWith [' ']) ∧
      jsSplitWs text = [[], []] ∧
      ∀ t ∈ jsSplitWs text, t = [] := by
  obtain ⟨c, cs, rfl⟩ := List.exists_cons_of_ne_nil htext
  have hsplit : jsSplitWs (c :: cs) = [[], []] := by
    have hlast : (c :: cs).getLastD 'a' ∈ c :: cs := by
      rw [List.getLastD_eq_getLast?, List.getLast?_eq_getLast _ (by simp)]
      exact List.getLast_mem (by simp)
    rw [jsSplitWs_ne_nil_eq (by simp)]
    rw [tokens_all_ws hws]
    have h1 : isWs ((c :: cs).headD 'a') = true := hws c (by simp)
    have h2 : isWs ((c :: cs).getLastD 'a') = true := hws _ hlast
    have h2x : isWs ((c :: cs).getLast?.getD 'a') = true := by
      rw [← List.getLastD_eq_getLast?]
      exact h2
    simp [hws c (by simp), h1, h2, h2x]
  refine ⟨(chunkWindows maxWords (jsSplitWs (c :: cs))).map (joinWith [' ']),
    chunkText_ok (by simp) hk, ?_, rfl, hsplit, by simp [hsplit]⟩
  rw [hsplit]
  simp only [ne_eq, List.map_eq_nil_iff]
  rw [chunkWindows_eq_nil_iff]
  simp

/-- Witness for C9 at `text = " "` (one space), `maxWords = 3`. -/
theorem chunkText_whitespace_only_witness :
    " ".data ≠ [] ∧ (∀ c ∈ " ".data, isWs c = true) ∧ 0 < 3 ∧
      ∃ chunks, chunkText " ".data 3 = Except.ok chunks ∧ chunks ≠ [] ∧
        chunks = (chunkWindows 3 (jsSplitWs " ".data)).map (joinWith [' ']) ∧
        jsSplitWs " ".data = [[], []] ∧
        ∀ t ∈ jsSplitWs " ".data, t = [] :=
  ⟨by simp, by simp [isWs], by omega,
    chunkText_whitespace_only " ".data 3 (by simp) (by simp [isWs]) (by omega)⟩

theorem sumSq_nonneg (a : List ℝ) : 0 ≤ (a.map fun v => v * v).sum :=
  List.sum_nonneg fun x hx => by
    obtain ⟨v, _, rfl⟩ := List.mem_map.mp hx
    exact mul_self_nonneg v

theorem sumSq_pos {a : List ℝ} (h : ∃ x ∈ a, x ≠ 0) : 0 < (a.map fun v => v * v).sum := by
  induction a with
  | nil => simp at h
  | cons v vs ih =>
    obtain ⟨x, hx, hx0⟩ := h
    rcases List.mem_cons.mp hx with rfl | hx'
    · have h1 : 0 < x * x := mul_self_pos.mpr hx0
      have h2 : 0 ≤ (vs.map fun v => v * v).sum := sumSq_nonneg vs
      simp only [List.map_cons, List.sum_cons]
      linarith
    · have h1 : 0 < (vs.map fun v => v * v).sum := ih ⟨x, hx', hx0⟩
      have h2 : 0 ≤ v * v := mul_self_nonneg v
      simp only [List.map_cons, List.sum_cons]
      linarith

theorem mag_ne_zero {a : List ℝ} (h : ∃ x ∈ a, x ≠ 0) :
    Real.sqrt ((a.map fun v => v * v).sum) ≠ 0 := by
  rw [ne_eq, Real.sqrt_eq_zero']
  push_neg
  exact sumSq_pos h

/-- On valid inputs `cosineSimilarity` succeeds with value `simScore`. -/
theorem cosineSimilarity_eq_ok {a b : List ℝ} (ha : a ≠ []) (hb : b ≠ [])
    (hlen : a.length = b.length) (hza : ∃ x ∈ a, x ≠ 0) (hzb : ∃ x ∈ b, x ≠ 0) :
    cosineSimilarity a b = Except.ok (simScore a b) := by
  rw [cosineSimilarity, if_neg, if_neg, if_neg]
  · rfl
  · push_neg
    exact ⟨mag_ne_zero hza, mag_ne_zero hzb⟩
  · simpa using hlen
  · push_neg
    exact ⟨by simpa [List.length_eq_zero] using ha, by simpa [List.length_eq_zero] using hb⟩

theorem zipWith_mul_self (a : List ℝ) :
    List.zipWith (· * ·) a a = a.map fun v => v * v := by
  induction a with
  | nil => rfl
  | cons v vs ih => simp [ih]

/-- Claim C7: for every non-zero vector `v`, `cosineSimilarity(v, v) = 1`
under exact real arithmetic, and for equal-length nonempty vectors of
non-zero magnitude the similarity is symmetric. -/
theorem cosineSimilarity_self_and_symm :
    (∀ v : List ℝ, v ≠ [] → (∃ x ∈ v, x ≠ 0) → cosineSimilarity v v = Except.ok 1) ∧
    (∀ a b : List ℝ, a ≠ [] → b ≠ [] → a.length = b.length →
      (∃ x ∈ a, x ≠ 0) → (∃ x ∈ b, x ≠ 0) →
      cosineSimilarity a b = cosineSimilarity b a) := by
  constructor
  · intro v hv hz
    rw [cosineSimilarity_eq_ok hv hv rfl hz hz, simScore, zipWith_mul_self]
    rw [Real.mul_self_sqrt (sumSq_nonneg v)]
    rw [div_self (ne_of_gt (sumSq_pos hz))]
  · intro a b ha hb hlen hza hzb
    rw [cosineSimilarity_eq_ok ha hb hlen hza hzb,
      cosineSimilarity_eq_ok hb ha hlen.symm hzb hza]
    rw [simScore, simScore]
    rw [List.zipWith_comm_of_comm _ mul_comm a b, mul_comm]

/-- Witness for C7 at `v = [1]` and `(a, b) = ([1, 0], [0, 1])`. -/
theorem cosineSimilarity_self_and_symm_witness :
    cosineSimilarity [(1 : ℝ)] [(1 : ℝ)] = Except.ok 1 ∧
    cosineSimilarity [(1 : ℝ), 0] [(0 : ℝ), 1] = cosineSimilarity [(0 : ℝ), 1] [(1 : ℝ), 0] :=
  ⟨cosineSimilarity_self_and_symm.1 [1] (by simp) ⟨1, by simp, one_ne_zero⟩,
   cosineSimilarity_self_and_symm.2 [1, 0] [0, 1] (by simp) (by simp) (by simp)
     ⟨1, by simp, one_ne_zero⟩ ⟨1, by simp, one_ne_zero⟩⟩

theorem mapM_ok_of_forall {β γ : Type _} (F : β → Except String γ) (G : β → γ) :
    ∀ L : List β, (∀ x ∈ L, F x = Except.ok (G x)) → L.mapM F = Except.ok (L.map G)
  | [], _ => rfl
  | x :: xs, h => by
    rw [List.mapM_cons, h x (by simp),
      mapM_ok_of_forall F G xs (fun y hy => h y (by simp [hy]))]
    rfl

theorem simPairs_length (q : List ℝ) (dV : List (List ℝ)) :
    (simPairs q dV).length = dV.length := by
  simp [simPairs]

theorem simPairs_map_fst (q : List ℝ) (dV : List (List ℝ)) :
    (simPairs q dV).map Prod.fst = List.range dV.length := by
  rw [simPairs, List.map_map]
  exact List.enum_map_fst dV

theorem simPairs_mapM_ok {q : List ℝ} {dV : List (List ℝ)}
    (hq : q ≠ []) (hqnz : ∃ x ∈ q, x ≠ 0)
    (hdim : ∀ e ∈ dV, e.length = q.length)
    (hnz : ∀ e ∈ dV, ∃ x ∈ e, x ≠ 0) :
    dV.enum.mapM
      (fun pe => Except.map (fun sc => (pe.1, sc)) (cosineSimilarity q pe.2))
      = Except.ok (simPairs q dV) := by
  apply mapM_ok_of_forall
  intro pe hpe
  have he : pe.2 ∈ dV := by
    rcases pe with ⟨i, e⟩
    rw [List.enum_eq_zip_range] at hpe
    exact (List.of_mem_zip hpe).2
  have hene : pe.2 ≠ [] := by
    intro hnil
    have hl := hdim pe.2 he
    rw [hnil] at hl
    exact hq (List.length_eq_zero.mp hl.symm)
  rw [cosineSimilarity_eq_ok hq hene (hdim pe.2 he).symm hqnz (hnz pe.2 he)]
  rfl

theorem cos_ok_of_mem_enum {q : List ℝ} {dV : List (List ℝ)}
    (hq : q ≠ []) (hqnz : ∃ x ∈ q, x ≠ 0)
    (hdim : ∀ e ∈ dV, e.length = q.length)
    (hnz : ∀ e ∈ dV, ∃ x ∈ e, x ≠ 0) :
    ∀ pe ∈ dV.enum, cosineSimilarity q pe.2 = Except.ok (simScore q pe.2) := by
  intro pe hpe
  have he : pe.2 ∈ dV := by
    rcases pe with ⟨i, e⟩
    rw [List.enum_eq_zip_range] at hpe
    exact (List.of_mem_zip hpe).2
  have hene : pe.2 ≠ [] := by
    intro hnil
    have hl := hdim pe.2 he
    rw [hnil] at hl
    exact hq (List.length_eq_zero.mp hl.symm)
  exact cosineSimilarity_eq_ok hq hene (hdim pe.2 he).symm hqnz (hnz pe.2 he)

/-- On valid vectors `findRelevantChunks` succeeds and returns the chunks at
the first (clamped) `topK` positions of the stably sorted similarity list. -/
theorem findRelevantChunks_eq_ok {α : Type _} [Inhabited α] {q : List ℝ}
    {dV : List (List ℝ)} {dC : List α} (topK : Int)
    (hq : q ≠ []) (hdV : dV ≠ []) (hdC : dC ≠ []) (hlen : dV.length = dC.length)
    (hqnz : ∃ x ∈ q, x ≠ 0) (hdim : ∀ e ∈ dV, e.length = q.length)
    (hnz : ∀ e ∈ dV, ∃ x ∈ e, x ≠ 0) :
    findRelevantChunks q dV dC topK
      = Except.ok ((((simPairs q dV).insertionSort simOrder).take
          (if topK ≤ 0 ∨ (dC.length : Int) < topK then min 3 dC.length
            else topK.toNat)).map fun pe => dC.getD pe.1 default) := by
  unfold findRelevantChunks
  rw [if_neg (by simpa [List.length_eq_zero] using hq),
    if_neg (by simpa [List.length_eq_zero] using hdV),
    if_neg (by simpa [List.length_eq_zero] using hdC),
    if_neg (by simp [hlen])]
  rw [simPairs_mapM_ok hq hqnz hdim hnz]

theorem length_pos_of_ne_nil {α : Type _} {l : List α} (h : l ≠ []) : 0 < l.length := by
  cases l with
  | nil => exact absurd rfl h
  | cons x xs => simp

/-- Claim C3 (amended): on valid vectors and an in-range `0 < topK ≤
len(docChunks)`, `findRelevantChunks` returns exactly `topK` chunks — those at
the `topK` highest-similarity indices, in descending-similarity order with
ties broken by ascending original chunk index (the stable-sort order), not
restored to document order.  (The unamended claim's bound
`min(topK, len(docChunks))` fails for `topK ≤ 0`, where the code silently
clamps to `min(3, len(docChunks))` — see the counterexample.) -/
theorem findRelevantChunks_topk_characterization {α : Type _} [Inhabited α]
    (q : List ℝ) (dV : List (List ℝ)) (dC : List α) (topK : Int)
    (hq : q ≠ []) (hdV : dV ≠ []) (hdC : dC ≠ []) (hlen : dV.length = dC.length)
    (hqnz : ∃ x ∈ q, x ≠ 0) (hdim : ∀ e ∈ dV, e.length = q.length)
    (hnz : ∀ e ∈ dV, ∃ x ∈ e, x ≠ 0)
    (hk0 : 0 < topK) (hkn : topK ≤ (dC.length : Int)) :
    (∀ pe ∈ dV.enum, cosineSimilarity q pe.2 = Except.ok (simScore q pe.2)) ∧
    ∃ sel : List (Nat × ℝ),
      findRelevantChunks q dV dC topK
        = Except.ok (sel.map fun pe => dC.getD pe.1 default) ∧
      (sel.length : Int) = topK ∧
      (sel.map Prod.fst).Nodup ∧
      (∀ p ∈ sel, p ∈ simPairs q dV ∧ p.1 < dC.length) ∧
      sel.Pairwise (fun x y => y.2 < x.2 ∨ (x.2 = y.2 ∧ x.1 < y.1)) ∧
      (∀ r ∈ simPairs q dV, r.1 ∉ sel.map Prod.fst →
        ∀ p ∈ sel, r.2 < p.2 ∨ (p.2 = r.2 ∧ p.1 < r.1)) := by
  refine ⟨cos_ok_of_mem_enum hq hqnz hdim hnz, ?_⟩
  have hif : (if topK ≤ 0 ∨ (dC.length : Int) < topK then min 3 dC.length
      else topK.toNat) = topK.toNat := by
    rw [if_neg]
    push_neg
    exact ⟨by omega, by omega⟩
  have hperm : ((simPairs q dV).insertionSort simOrder).Perm (simPairs q dV) :=
    List.perm_insertionSort simOrder _
  have hsorted : ((simPairs q dV).insertionSort simOrder).Pairwise simOrder :=
    List.sorted_insertionSort simOrder _
  have hslen : ((simPairs q dV).insertionSort simOrder).length = dV.length := by
    rw [List.length_insertionSort, simPairs_length]
  have hfst_nodup : (((simPairs q dV).insertionSort simOrder).map Prod.fst).Nodup := by
    rw [(hperm.map Prod.fst).nodup_iff, simPairs_map_fst]
    exact List.nodup_range _
  refine ⟨((simPairs q dV).insertionSort simOrder).take topK.toNat, ?_, ?_, ?_, ?_, ?_, ?_⟩
  · rw [findRelevantChunks_eq_ok topK hq hdV hdC hlen hqnz hdim hnz, hif]
  · rw [List.length_take, hslen]
    omega
  · exact ((List.take_sublist _ _).map Prod.fst).nodup hfst_nodup
  · intro p hp
    have hps : p ∈ (simPairs q dV).insertionSort simOrder := List.take_subset _ _ hp
    have hmem : p ∈ simPairs q dV := hperm.mem_iff.mp hps
    refine ⟨hmem, ?_⟩
    have hidx : p.1 ∈ (simPairs q dV).map Prod.fst := List.mem_map_of_mem Prod.fst hmem
    rw [simPairs_map_fst] at hidx
    rw [← hlen]
    exact List.mem_range.mp hidx
  · have hpair : (((simPairs q dV).insertionSort simOrder).take topK.toNat).Pairwise
        simOrder := hsorted.sublist (List.take_sublist _ _)
    have hnodup : ((((simPairs q dV).insertionSort simOrder).take topK.toNat).map
        Prod.fst).Nodup := ((List.take_sublist _ _).map Prod.fst).nodup hfst_nodup
    have hne : (((simPairs q dV).insertionSort simOrder).take topK.toNat).Pairwise
        (fun x y => x.1 ≠ y.1) := List.pairwise_map.mp hnodup
    refine (hpair.and hne).imp ?_
    intro a b hab
    rcases hab with ⟨hord | ⟨heq, hle⟩, hne2⟩
    · exact Or.inl hord
    · exact Or.inr ⟨heq, lt_of_le_of_ne hle hne2⟩
  · intro r hr hnotin p hp
    have hrs : r ∈ (simPairs q dV).insertionSort simOrder := hperm.mem_iff.mpr hr
    have hsorted2 : (((simPairs q dV).insertionSort simOrder).take topK.toNat ++
        ((simPairs q dV).insertionSort simOrder).drop topK.toNat).Pairwise simOrder := by
      rwa [List.take_append_drop]
    have hcross := (List.pairwise_append.mp hsorted2).2.2
    have hrdrop : r ∈ ((simPairs q dV).insertionSort simOrder).drop topK.toNat := by
      have hrs2 : r ∈ ((simPairs q dV).insertionSort simOrder).take topK.toNat ++
          ((simPairs q dV).insertionSort simOrder).drop topK.toNat := by
        rwa [List.take_append_drop]
      rcases List.mem_append.mp hrs2 with h | h
      · exact absurd (List.mem_map_of_mem Prod.fst h) hnotin
      · exact h
    have hord := hcross p hp r hrdrop
    have hne2 : p.1 ≠ r.1 := fun heq => hnotin (heq ▸ List.mem_map_of_mem Prod.fst hp)
    rcases hord with h | ⟨h1, h2⟩
    · exact Or.inl h
    · exact Or.inr ⟨h1, lt_of_le_of_ne h2 hne2⟩

/-- Witness for (amended) C3 at `q = [1]`, `docVectors = [[1]]`,
`docChunks = [5]`, `topK = 1`. -/
theorem findRelevantChunks_topk_characterization_witness :
    (0 : Int) < 1 ∧
    ((∀ pe ∈ ([[(1 : ℝ)]] : List (List ℝ)).enum,
        cosineSimilarity [(1 : ℝ)] pe.2 = Except.ok (simScore [(1 : ℝ)] pe.2)) ∧
      ∃ sel : List (Nat × ℝ),
        findRelevantChunks [(1 : ℝ)] [[(1 : ℝ)]] [(5 : Nat)] 1
          = Except.ok (sel.map fun pe => ([(5 : Nat)]).getD pe.1 default) ∧
        (sel.length : Int) = 1 ∧
        (sel.map Prod.fst).Nodup ∧
        (∀ p ∈ sel, p ∈ simPairs [(1 : ℝ)] [[(1 : ℝ)]] ∧ p.1 < ([(5 : Nat)]).length) ∧
        sel.Pairwise (fun x y => y.2 < x.2 ∨ (x.2 = y.2 ∧ x.1 < y.1)) ∧
        (∀ r ∈ simPairs [(1 : ℝ)] [[(1 : ℝ)]], r.1 ∉ sel.map Prod.fst →
          ∀ p ∈ sel, r.2 < p.2 ∨ (p.2 = r.2 ∧ p.1 < r.1))) :=
  ⟨by decide,
    findRelevantChunks_topk_characterization [(1 : ℝ)] [[(1 : ℝ)]] [(5 : Nat)] 1
      (by simp) (by simp) (by simp) (by simp) ⟨1, by simp, one_ne_zero⟩
      (by simp) (by simp) (by decide) (by simp)⟩

/-- The unamended Claim C3 fails at `topK = 0`: with a single chunk the call
returns that chunk — the silent clamp resets `topK` to `min 3 1 = 1` — so the
result has one entry although the claimed bound is `min(topK, len) = 0`. -/
theorem findRelevantChunks_topk_cex :
    findRelevantChunks [(1 : ℝ)] [[(1 : ℝ)]] [(5 : Nat)] 0 = Except.ok [5] ∧
    ¬((([(5 : Nat)]).length : Int) ≤ min 0 (([(5 : Nat)]).length : Int)) := by
  constructor
  · rw [@findRelevantChunks_eq_ok Nat _ [(1 : ℝ)] [[(1 : ℝ)]] [5] 0
      (by simp) (by simp) (by simp) (by simp) ⟨1, by simp, one_ne_zero⟩
      (by simp) (by simp)]
    have hpairs : simPairs [(1 : ℝ)] [[(1 : ℝ)]] = [(0, simScore [1] [1])] := by
      simp [simPairs, List.enum_eq_zip_range, List.range_succ]
    rw [hpairs]
    norm_num [List.insertionSort, List.orderedInsert]
  · decide

/-- Claim C5: on valid vectors, an out-of-range `topK` (`topK ≤ 0` or
`topK > len(docChunks)`) is silently reset to `min(3, len(docChunks))` — the
call behaves exactly like one with that `topK` and succeeds with
`min(3, len(docChunks))` results — while an in-range `0 < topK ≤
len(docChunks)` is used unchanged, yielding exactly `topK` results. -/
theorem findRelevantChunks_clamps_topK {α : Type _} [Inhabited α]
    (q : List ℝ) (dV : List (List ℝ)) (dC : List α) (topK : Int)
    (hq : q ≠ []) (hdV : dV ≠ []) (hdC : dC ≠ []) (hlen : dV.length = dC.length)
    (hqnz : ∃ x ∈ q, x ≠ 0) (hdim : ∀ e ∈ dV, e.length = q.length)
    (hnz : ∀ e ∈ dV, ∃ x ∈ e, x ≠ 0) :
    ((topK ≤ 0 ∨ (dC.length : Int) < topK) →
      findRelevantChunks q dV dC topK
        = findRelevantChunks q dV dC (min 3 (dC.length : Int)) ∧
      ∃ l, findRelevantChunks q dV dC topK = Except.ok l ∧
        l.length = min 3 dC.length) ∧
    (0 < topK → topK ≤ (dC.length : Int) →
      ∃ l, findRelevantChunks q dV dC topK = Except.ok l ∧
        (l.length : Int) = topK) := by
  have hn : 0 < dC.length := length_pos_of_ne_nil hdC
  have hslen : ((simPairs q dV).insertionSort simOrder).length = dC.length := by
    rw [List.length_insertionSort, simPairs_length, hlen]
  constructor
  · intro hout
    have hifA : (if topK ≤ 0 ∨ (dC.length : Int) < topK then min 3 dC.length
        else topK.toNat) = min 3 dC.length := if_pos hout
    have hifB : (if min 3 (dC.length : Int) ≤ 0 ∨
        (dC.length : Int) < min 3 (dC.length : Int) then min 3 dC.length
        else (min 3 (dC.length : Int)).toNat) = min 3 dC.length := by
      rw [if_neg (by omega)]
      omega
    constructor
    · rw [findRelevantChunks_eq_ok topK hq hdV hdC hlen hqnz hdim hnz,
        findRelevantChunks_eq_ok (min 3 (dC.length : Int)) hq hdV hdC hlen hqnz hdim hnz,
        hifA, hifB]
    · refine ⟨_, by rw [findRelevantChunks_eq_ok topK hq hdV hdC hlen hqnz hdim hnz,
        hifA], ?_⟩
      rw [List.length_map, List.length_take, hslen]
      omega
  · intro h1 h2
    have hif : (if topK ≤ 0 ∨ (dC.length : Int) < topK then min 3 dC.length
        else topK.toNat) = topK.toNat := by
      rw [if_neg]
      push_neg
      exact ⟨by omega, by omega⟩
    refine ⟨_, by rw [findRelevantChunks_eq_ok topK hq hdV hdC hlen hqnz hdim hnz,
      hif], ?_⟩
    rw [List.length_map, List.length_take, hslen]
    omega

/-- Witness for C5 at `q = [1]`, `docVectors = [[1]]`, `docChunks = [7]`,
out-of-range `topK = 5`. -/
theorem findRelevantChunks_clamps_topK_witness :
    ((5 : Int) ≤ 0 ∨ (([(7 : Nat)]).length : Int) < 5) ∧
    (((5 : Int) ≤ 0 ∨ (([(7 : Nat)]).length : Int) < 5) →
      findRelevantChunks [(1 : ℝ)] [[(1 : ℝ)]] [(7 : Nat)] 5
        = findRelevantChunks [(1 : ℝ)] [[(1 : ℝ)]] [(7 : Nat)]
            (min 3 ((([(7 : Nat)]).length : Int))) ∧
      ∃ l, findRelevantChunks [(1 : ℝ)] [[(1 : ℝ)]] [(7 : Nat)] 5 = Except.ok l ∧
        l.length = min 3 ([(7 : Nat)]).length) :=
  ⟨by decide,
    (findRelevantChunks_clamps_topK [(1 : ℝ)] [[(1 : ℝ)]] [(7 : Nat)] 5
      (by simp) (by simp) (by simp) (by simp) ⟨1, by simp, one_ne_zero⟩
      (by simp) (by simp)).1⟩

theorem embedBatches_map {α : Type _} (f : α → List ℝ) :
    ∀ W : List (List α), embedBatches (fun b => Except.ok (b.map f)) W
      = Except.ok ((W.map fun b => b.map f).flatten)
  | [] => rfl
  | b :: bs => by
    simp [embedBatches, embedBatches_map f bs]

/-- Claim C6: for nonempty `texts`, `getEmbeddings` partitions `texts` into
consecutive order-preserving batches of at most 10, issues one service call
per batch, and concatenates the per-batch results in batch order; with the
service modelled as a per-text function `f`, the result is exactly
`texts.map f` — positionally aligned with `texts`. -/
theorem getEmbeddings_batches_aligned {α : Type _} (texts : List α)
    (htexts : texts ≠ []) :
    (chunkWindows 10 texts).flatten = texts ∧
    (∀ b ∈ chunkWindows 10 texts, b ≠ [] ∧ b.length ≤ 10) ∧
    ∀ f : α → List ℝ,
      getEmbeddings (fun b => Except.ok (b.map f)) texts = Except.ok (texts.map f) := by
  refine ⟨chunkWindows_flatten (by omega) texts, ?_, ?_⟩
  · intro b hb
    exact ⟨ne_nil_of_mem_chunkWindows (by omega) texts b hb,
      length_le_of_mem_chunkWindows texts b hb⟩
  · intro f
    obtain ⟨t, ts, rfl⟩ := List.exists_cons_of_ne_nil htexts
    have h1 : getEmbeddings (fun b => Except.ok (b.map f)) (t :: ts)
        = match embedBatches (fun b => Except.ok (b.map f)) (chunkWindows 10 (t :: ts)) with
          | Except.ok v => Except.ok v
          | Except.error _ => Except.error "Failed to generate embeddings" := rfl
    have h2 : ((chunkWindows 10 (t :: ts)).map fun b => b.map f).flatten
        = (t :: ts).map f := by
      rw [← List.map_flatten, chunkWindows_flatten (by omega)]
    rw [h1, embedBatches_map f, h2]

/-- Witness for C6 at `texts = [3, 4]` with the constant per-text service. -/
theorem getEmbeddings_batches_aligned_witness :
    ([3, 4] : List Nat) ≠ [] ∧
    ((chunkWindows 10 ([3, 4] : List Nat)).flatten = [3, 4] ∧
      (∀ b ∈ chunkWindows 10 ([3, 4] : List Nat), b ≠ [] ∧ b.length ≤ 10) ∧
      ∀ f : Nat → List ℝ,
        getEmbeddings (fun b => Except.ok (b.map f)) [3, 4]
          = Except.ok ([3, 4].map f)) :=
  ⟨by simp, getEmbeddings_batches_aligned [3, 4] (by simp)⟩

/-- The unamended Claim C4 fails: the empty-input failure of `getEmbeddings`
surfaces as the same uniform `"Failed to generate embeddings"` error that an
embedding-service failure produces (here a service that always fails on the
one-element input `[4]`), not as a distinguishable `InvalidInput` error —
the internal "Invalid input" throw is swallowed by the catch-all. -/
theorem getEmbeddings_empty_input_cex :
    getEmbeddings (fun _ : List Nat =>
        (Except.error "service down" : Except String (List (List ℝ)))) ([] : List Nat)
      = Except.error "Failed to generate embeddings" ∧
    getEmbeddings (fun _ : List Nat =>
        (Except.error "service down" : Except String (List (List ℝ)))) [4]
      = Except.error "Failed to generate embeddings" ∧
    getEmbeddings (fun _ : List Nat =>
        (Except.error "service down" : Except String (List (List ℝ)))) ([] : List Nat)
      ≠ Except.error "Invalid input: texts must be a non-empty array of strings" := by
  refine ⟨rfl, ?_, ?_⟩
  · simp [getEmbeddings, chunkWindows, embedBatches]
  · have h0 : getEmbeddings (fun _ : List Nat =>
        (Except.error "service down" : Except String (List (List ℝ)))) ([] : List Nat)
        = Except.error "Failed to generate embeddings" := rfl
    rw [h0]
    simp

/-- Claim C4 (amended): `getEmbeddings` does fail when `texts` is empty, but
the failure is re-signalled through the function's catch-all as the same
uniform `"Failed to generate embeddings"` error used for underlying service
failures, so it is not distinguishable from them. -/
theorem getEmbeddings_empty_uniform_error {α : Type _} :
    (∀ svc : List α → Except String (List (List ℝ)),
      getEmbeddings svc ([] : List α) = Except.error "Failed to generate embeddings") ∧
    (∀ (svc : List α → Except String (List (List ℝ))) (texts : List α) (e : String),
      texts ≠ [] → (∀ b, svc b = Except.error e) →
      getEmbeddings svc texts = Except.error "Failed to generate embeddings") := by
  constructor
  · intro svc
    rfl
  · intro svc texts e hne hsvc
    obtain ⟨t, ts, rfl⟩ := List.exists_cons_of_ne_nil hne
    have h1 : getEmbeddings svc (t :: ts)
        = match embedBatches svc (chunkWindows 10 (t :: ts)) with
          | Except.ok v => Except.ok v
          | Except.error _ => Except.error "Failed to generate embeddings" := rfl
    rw [h1, chunkWindows_cons (by omega)]
    simp [embedBatches, hsvc]

/-- Witness for (amended) C4: a service that always fails and the nonempty
input `[4]`. -/
theorem getEmbeddings_empty_uniform_error_witness :
    ([4] : List Nat) ≠ [] ∧
    getEmbeddings (fun _ : List Nat =>
        (Except.error "service down" : Except String (List (List ℝ)))) ([] : List Nat)
      = Except.error "Failed to generate embeddings" ∧
    getEmbeddings (fun _ : List Nat =>
        (Except.error "service down" : Except String (List (List ℝ)))) [4]
      = Except.error "Failed to generate embeddings" :=
  ⟨by simp,
    getEmbeddings_empty_uniform_error.1 _,
    getEmbeddings_empty_uniform_error.2 _ [4] "service down" (by simp) (fun _ => rfl)⟩

theorem runQuestions_foldl_fst
    (svc : List (List Char) → Except String (List (List ℝ)))
    (synth : List Char → List (List Char) → Except String (List Char))
    (chunkEmbs : List (List ℝ)) (chunks : List (List Char)) :
    ∀ (qs : List JsVal) (acc : List (List Char) × List String),
      (qs.foldl (fun acc q =>
        let r := processQuestion svc synth chunkEmbs chunks q
        (acc.1 ++ [r.1], acc.2 ++ r.2)) acc).1
      = acc.1 ++ qs.map fun q => (processQuestion svc synth chunkEmbs chunks q).1
  | [], acc => by simp
  | q :: qs, acc => by
    rw [List.foldl_cons, runQuestions_foldl_fst svc synth chunkEmbs chunks qs _]
    simp

theorem runQuestions_fst_eq_map
    (svc : List (List Char) → Except String (List (List ℝ)))
    (synth : List Char → List (List Char) → Except String (List Char))
    (chunkEmbs : List (List ℝ)) (chunks : List (List Char)) (qs : List JsVal) :
    (runQuestions svc synth chunkEmbs chunks qs).1
      = qs.map fun q => (processQuestion svc synth chunkEmbs chunks q).1 := by
  rw [runQuestions, runQuestions_foldl_fst]
  simp

/-- Claim C1: the per-question loop pushes exactly one string per question —
the loop result is the positional map of the per-question step over the
input questions, so it has exactly as many entries as there are questions,
whatever the collaborators do (any number of per-question failures); and
whenever `POSTrun` reaches the loop and answers with a 200 response, the
`answers` list has exactly one entry per input question. -/
theorem runQuestions_one_answer_per_question
    (svc : List (List Char) → Except String (List (List ℝ)))
    (synth : List Char → List (List Char) → Except String (List Char))
    (chunkEmbs : List (List ℝ)) (chunks : List (List Char)) (qs : List JsVal) :
    (runQuestions svc synth chunkEmbs chunks qs).1
      = (qs.map fun q => (processQuestion svc synth chunkEmbs chunks q).1) ∧
    (runQuestions svc synth chunkEmbs chunks qs).1.length = qs.length ∧
    ∀ (extract : List Char → Except String (List Char)) (d : Option (List Char)),
      (match POSTrun extract svc synth d (QField.arr qs) with
        | (Resp.answers l, _) => l.length = qs.length
        | (Resp.err _ _, _) => True) := by
  refine ⟨runQuestions_fst_eq_map svc synth chunkEmbs chunks qs, ?_, ?_⟩
  · rw [runQuestions_fst_eq_map]
    simp
  · intro extract d
    unfold POSTrun
    by_cases hv : validInput d (QField.arr qs) = true
    · rw [if_pos hv]
      cases hext : extract (d.getD []) with
      | error e => exact trivial
      | ok fullText =>
        dsimp only
        by_cases htr : jsTrim fullText = []
        · rw [if_pos htr]
          exact trivial
        · rw [if_neg htr]
          cases hchunk : chunkText fullText 500 with
          | error e => exact trivial
          | ok chunks2 =>
            dsimp only
            cases hemb : getEmbeddings svc chunks2 with
            | error e => exact trivial
            | ok chunkEmbs2 =>
              show (runQuestions svc synth chunkEmbs2 chunks2 (QField.arr qs).list).1.length
                = qs.length
              rw [show (QField.arr qs).list = qs from rfl, runQuestions_fst_eq_map]
              simp
    · rw [if_neg hv]
      exact trivial

/-- Claim C8: a missing `documents` field, a missing or non-array
`questions` field, or an empty `questions` array makes the handler answer
400 with the explanatory message, and the I/O trace is empty: no document
fetch, no embedding call, no answer synthesis. -/
theorem POSTrun_invalid_request_400
    (extract : List Char → Except String (List Char))
    (svc : List (List Char) → Except String (List (List ℝ)))
    (synth : List Char → List (List Char) → Except String (List Char))
    (d : Option (List Char)) (qf : QField)
    (h : d = none ∨ qf = QField.missing ∨ qf = QField.notArray ∨ qf = QField.arr []) :
    POSTrun extract svc synth d qf
      = (Resp.err 400 "Invalid request. Please provide documents URL and questions array.",
          []) := by
  have hv : validInput d qf = false := by
    rcases h with rfl | rfl | rfl | rfl
    · cases qf with
      | missing => rfl
      | notArray => rfl
      | arr qs => cases qs <;> rfl
    · cases d with
      | none => rfl
      | some l => cases l <;> rfl
    · cases d with
      | none => rfl
      | some l => cases l <;> rfl
    · cases d with
      | none => rfl
      | some l => cases l <;> rfl
  unfold POSTrun
  rw [if_neg (by simp [hv])]

/-- Witness for C8: missing `documents` with a well-formed one-question
array, under collaborators that would fail if ever called. -/
theorem POSTrun_invalid_request_400_witness :
    ((none : Option (List Char)) = none ∨ QField.arr [JsVal.str "q".data] = QField.missing ∨
      QField.arr [JsVal.str "q".data] = QField.notArray ∨
      QField.arr [JsVal.str "q".data] = QField.arr []) ∧
    POSTrun (fun _ => Except.error "unreachable") (fun _ => Except.error "unreachable")
        (fun _ _ => Except.error "unreachable") none (QField.arr [JsVal.str "q".data])
      = (Resp.err 400 "Invalid request. Please provide documents URL and questions array.",
          []) :=
  ⟨Or.inl rfl,
    POSTrun_invalid_request_400 (fun _ => Except.error "unreachable")
      (fun _ => Except.error "unreachable") (fun _ _ => Except.error "unreachable")
      none (QField.arr [JsVal.str "q".data]) (Or.inl rfl)⟩

/-- Claim C10: a non-string question value never aborts the request —
`.trim()` on it throws, the per-question handler catches the exception and
pushes the placeholder string for that position, and the loop continues:
the surrounding questions are processed exactly as if the bad one were
absent, and the result still has one entry per question. -/
theorem loop_isolates_nonstring_question
    (svc : List (List Char) → Except String (List (List ℝ)))
    (synth : List Char → List (List Char) → Except String (List Char))
    (chunkEmbs : List (List ℝ)) (chunks : List (List Char))
    (pre post : List JsVal) (d : List Char) :
    jsTrimVal (JsVal.nonStr d)
      = Except.error "TypeError: question.trim is not a function" ∧
    processQuestion svc synth chunkEmbs chunks (JsVal.nonStr d)
      = ("Error: Failed to process the question: ".data ++ d, []) ∧
    (runQuestions svc synth chunkEmbs chunks (pre ++ JsVal.nonStr d :: post)).1
      = (runQuestions svc synth chunkEmbs chunks pre).1
        ++ ("Error: Failed to process the question: ".data ++ d)
          :: (runQuestions svc synth chunkEmbs chunks post).1 ∧
    (runQuestions svc synth chunkEmbs chunks (pre ++ JsVal.nonStr d :: post)).1.length
      = pre.length + 1 + post.length := by
  refine ⟨rfl, rfl, ?_, ?_⟩
  · rw [runQuestions_fst_eq_map, runQuestions_fst_eq_map, runQuestions_fst_eq_map]
    simp only [List.map_append, List.map_cons]
    rfl
  · rw [runQuestions_fst_eq_map]
    simp only [List.length_map, List.length_append, List.length_cons]
    omega

end HackRx
